import Mathlib

/-!
Verification of `scripts/remove_logo_bg.py`.

The script loads an RGBA image, collects dark border pixels as seeds,
flood-fills the 4-connected dark background region from those seeds,
sets the alpha of every background pixel to 0, then additionally zeroes
the alpha of every remaining very dark pixel, and saves the result.

The embedding below mirrors the script's pixel computation:
* `Pixel`/`Image` model the RGBA grid (PIL `px[x, y]`, integer indices);
* luminance comparisons `(0.299 r + 0.587 g + 0.114 b) / 255 <= t` are
  exact rational comparisons, scaled by 255000 into naturals
  (`<= 0.28` becomes `lum255000 <= 71400`, `<= 0.15` becomes `<= 38250`);
* the flood fill is the script's explicit work-list loop; the Lean list
  models the Python stack with its head as the end Python appends to and
  pops from, so the pop order is the same; the loop is run with fuel
  `w * h`, which is proved sufficient (`floodLoop_stack_empty`);
* the two mutation passes read only the pixel they rewrite, so they are
  expressed pointwise.
-/

namespace RemoveLogoBg

/-- An RGBA pixel; channel values are naturals (0..255 in real images). -/
structure Pixel where
  r : Nat
  g : Nat
  b : Nat
  a : Nat
deriving DecidableEq, Repr

/-- An image: dimensions plus a pixel grid, indexed by integer coordinates
as in the Python source (`px[x, y]`). -/
@[ext]
structure Image where
  w : Nat
  h : Nat
  pix : Int → Int → Pixel

/-- Luminance scaled by 255000: `luminance(r, g, b) <= t` in the source is the
exact comparison `(0.299 r + 0.587 g + 0.114 b) / 255 <= t`, i.e.
`lum255000 p <= t * 255000`. -/
def lum255000 (p : Pixel) : Nat := 299 * p.r + 587 * p.g + 114 * p.b

/-- The dark threshold `0.28`, scaled by 255000. -/
def DARK : Nat := 71400

/-- The isolated-pixel threshold `0.15`, scaled by 255000. -/
def ISOLATED : Nat := 38250

/-- The test `a > 0 and luminance(r, g, b) <= DARK` for the pixel at `c`. -/
def darkPx (img : Image) (c : Int × Int) : Prop :=
  0 < (img.pix c.1 c.2).a ∧ lum255000 (img.pix c.1 c.2) ≤ DARK

instance (img : Image) (c : Int × Int) : Decidable (darkPx img c) :=
  inferInstanceAs (Decidable (0 < (img.pix c.1 c.2).a ∧
    lum255000 (img.pix c.1 c.2) ≤ DARK))

/-- The test `a > 0 and luminance(r, g, b) <= 0.15` for the pixel at `c`. -/
def isoPx (img : Image) (c : Int × Int) : Prop :=
  0 < (img.pix c.1 c.2).a ∧ lum255000 (img.pix c.1 c.2) ≤ ISOLATED

instance (img : Image) (c : Int × Int) : Decidable (isoPx img c) :=
  inferInstanceAs (Decidable (0 < (img.pix c.1 c.2).a ∧
    lum255000 (img.pix c.1 c.2) ≤ ISOLATED))

/-- The bounds check `0 <= x < w and 0 <= y < h`. -/
def inB (img : Image) (c : Int × Int) : Prop :=
  0 ≤ c.1 ∧ c.1 < (img.w : Int) ∧ 0 ≤ c.2 ∧ c.2 < (img.h : Int)

instance (img : Image) (c : Int × Int) : Decidable (inB img c) :=
  inferInstanceAs (Decidable (0 ≤ c.1 ∧ c.1 < (img.w : Int) ∧ 0 ≤ c.2 ∧
    c.2 < (img.h : Int)))

/-- Coordinate `c` lies on the top or bottom row or the left or right column: exactly the
coordinates visited by the two seed-collection loops. -/
def onBorder (img : Image) (c : Int × Int) : Prop :=
  c.1 = 0 ∨ c.1 = (img.w : Int) - 1 ∨ c.2 = 0 ∨ c.2 = (img.h : Int) - 1

instance (img : Image) (c : Int × Int) : Decidable (onBorder img c) :=
  inferInstanceAs (Decidable (c.1 = 0 ∨ c.1 = (img.w : Int) - 1 ∨ c.2 = 0 ∨
    c.2 = (img.h : Int) - 1))

/-- All in-bounds coordinates. -/
def grid (img : Image) : Finset (Int × Int) :=
  Finset.Ico 0 (img.w : Int) ×ˢ Finset.Ico 0 (img.h : Int)

theorem mem_grid {img : Image} {c : Int × Int} : c ∈ grid img ↔ inB img c := by
  simp [grid, inB, Finset.mem_product, Finset.mem_Ico, and_assoc]

/-- The set `to_remove` after seed collection: the border pixels with
`a > 0 and luminance <= DARK`. -/
def seeds (img : Image) : Finset (Int × Int) :=
  (grid img).filter (fun c => onBorder img c ∧ darkPx img c)

/-- All in-bounds coordinates, as a duplicate-free list. -/
def gridList (img : Image) : List (Int × Int) :=
  ((List.range img.w).map Int.ofNat) ×ˢ ((List.range img.h).map Int.ofNat)

/-- The seeds as a duplicate-free list: Python's `list(to_remove)`, the
initial work stack. -/
def seedList (img : Image) : List (Int × Int) :=
  (gridList img).filter fun c => decide (onBorder img c ∧ darkPx img c)

/-- The flood-fill loop state: the set `to_remove` and the work stack. -/
structure FloodState where
  toRemove : Finset (Int × Int)
  stack : List (Int × Int)

/-- The four neighbour offsets `[(-1, 0), (1, 0), (0, -1), (0, 1)]` applied
to `c`, in source order. -/
def neighbors (c : Int × Int) : List (Int × Int) :=
  [(c.1 - 1, c.2), (c.1 + 1, c.2), (c.1, c.2 - 1), (c.1, c.2 + 1)]

/-- The body of the neighbour loop: if `n` is in bounds, not yet in
`to_remove`, and dark with positive alpha, add it to the set and push it. -/
def visitOne (img : Image) (st : FloodState) (n : Int × Int) : FloodState :=
  if inB img n ∧ n ∉ st.toRemove ∧ darkPx img n then
    ⟨insert n st.toRemove, n :: st.stack⟩
  else st

/-- Process the four neighbours of the popped coordinate `c`. -/
def visit (img : Image) (st : FloodState) (c : Int × Int) : FloodState :=
  (neighbors c).foldl (visitOne img) st

/-- The `while stack:` loop, with explicit fuel; each recursive call pops one
coordinate.  `floodLoop_stack_empty` below shows fuel `w * h` empties the
stack, so the fuelled function computes the loop's actual fixpoint. -/
def floodLoop (img : Image) : Nat → FloodState → FloodState
  | 0, st => st
  | fuel + 1, st =>
    match st.stack with
    | [] => st
    | c :: rest => floodLoop img fuel (visit img ⟨st.toRemove, rest⟩ c)

/-- State just before the loop: `to_remove` holds the seeds and
`stack = list(to_remove)`. -/
def initSt (img : Image) : FloodState :=
  ⟨seeds img, seedList img⟩

/-- The final `to_remove` set: the flood-filled background. -/
def bgSet (img : Image) : Finset (Int × Int) :=
  (floodLoop img (img.w * img.h) (initSt img)).toRemove

/-- The first mutation pass: `px[x, y] = (r, g, b, 0)` for every `(x, y)` in
`to_remove`.  Each update reads only its own coordinate, so the pass is
pointwise. -/
def removeBg (img : Image) (bg : Finset (Int × Int)) : Image :=
  ⟨img.w, img.h, fun x y =>
    if (x, y) ∈ bg then
      ⟨(img.pix x y).r, (img.pix x y).g, (img.pix x y).b, 0⟩
    else img.pix x y⟩

/-- The second mutation pass: scan every in-bounds pixel and zero the alpha
where `a > 0 and luminance <= 0.15`. -/
def removeIsolated (img : Image) : Image :=
  ⟨img.w, img.h, fun x y =>
    if inB img (x, y) ∧ isoPx img (x, y) then
      ⟨(img.pix x y).r, (img.pix x y).g, (img.pix x y).b, 0⟩
    else img.pix x y⟩

/-- The whole pixel transformation of `main`: flood fill, background removal,
isolated-dark cleanup. -/
def process (img : Image) : Image :=
  removeIsolated (removeBg img (bgSet img))

/-- Reachability `Reaches img c`: `c` is a dark border pixel with positive alpha, or is
reachable from one through a 4-connected path of in-bounds pixels that are
dark with positive alpha (all judged on the original image). -/
inductive Reaches (img : Image) : Int × Int → Prop where
  | seed : ∀ c, inB img c → onBorder img c → darkPx img c → Reaches img c
  | step : ∀ c n, Reaches img c → n ∈ neighbors c → inB img n → darkPx img n →
      Reaches img n

/-- The 3×3 test image: border pure black, centre pure white, all opaque. -/
def img3 : Image :=
  ⟨3, 3, fun x y => if x = 1 ∧ y = 1 then ⟨255, 255, 255, 255⟩ else ⟨0, 0, 0, 255⟩⟩

/-- The 5×5 test image: centre pure black (below the isolated threshold), all
other pixels pure white, all opaque. -/
def img5 : Image :=
  ⟨5, 5, fun x y => if x = 2 ∧ y = 2 then ⟨0, 0, 0, 255⟩ else ⟨255, 255, 255, 255⟩⟩

/-- The 5×5 test image: dark border ring, white interior ring, and an enclosed
grey centre blob whose luminance lies strictly between the isolated and the
dark thresholds. -/
def imgBlob : Image :=
  ⟨5, 5, fun x y =>
    if x = 2 ∧ y = 2 then ⟨60, 60, 60, 255⟩
    else if 1 ≤ x ∧ x ≤ 3 ∧ 1 ≤ y ∧ y ≤ 3 then ⟨255, 255, 255, 255⟩
    else ⟨0, 0, 0, 255⟩⟩

/-- A copy of `img3` that differs only at out-of-bounds coordinates. -/
def img3offGrid : Image :=
  ⟨3, 3, fun x y =>
    if 0 ≤ x ∧ x < 3 ∧ 0 ≤ y ∧ y < 3 then img3.pix x y else ⟨7, 7, 7, 7⟩⟩

/-! ### Basic facts about the grid, the seeds and the predicates -/

theorem darkPx_mk (img : Image) (x y : Int) :
    darkPx img (x, y) ↔ 0 < (img.pix x y).a ∧ lum255000 (img.pix x y) ≤ DARK :=
  Iff.rfl

theorem isoPx_mk (img : Image) (x y : Int) :
    isoPx img (x, y) ↔ 0 < (img.pix x y).a ∧ lum255000 (img.pix x y) ≤ ISOLATED :=
  Iff.rfl

theorem isoPx_congr {img₁ img₂ : Image} {c : Int × Int}
    (h : img₁.pix c.1 c.2 = img₂.pix c.1 c.2) : isoPx img₁ c ↔ isoPx img₂ c := by
  unfold isoPx; rw [h]

theorem darkPx_congr {img₁ img₂ : Image} {c : Int × Int}
    (h : img₁.pix c.1 c.2 = img₂.pix c.1 c.2) : darkPx img₁ c ↔ darkPx img₂ c := by
  unfold darkPx; rw [h]

theorem mem_gridList {img : Image} {c : Int × Int} :
    c ∈ gridList img ↔ inB img c := by
  obtain ⟨x, y⟩ := c
  simp only [gridList, List.mem_product, List.mem_map, List.mem_range, inB,
    Int.ofNat_eq_natCast]
  constructor
  · rintro ⟨⟨m, hm, rfl⟩, ⟨n, hn, rfl⟩⟩
    refine ⟨by omega, ?_, by omega, ?_⟩ <;> omega
  · rintro ⟨hx0, hxw, hy0, hyh⟩
    exact ⟨⟨x.toNat, by omega, by omega⟩, ⟨y.toNat, by omega, by omega⟩⟩

theorem gridList_nodup (img : Image) : (gridList img).Nodup := by
  refine List.Nodup.product ?_ ?_ <;>
    exact (List.nodup_range _).map fun a b h => Int.ofNat.inj h

theorem mem_seeds {img : Image} {c : Int × Int} :
    c ∈ seeds img ↔ inB img c ∧ onBorder img c ∧ darkPx img c := by
  rw [seeds, Finset.mem_filter, mem_grid]

theorem mem_seedList {img : Image} {c : Int × Int} :
    c ∈ seedList img ↔ c ∈ seeds img := by
  rw [seedList, List.mem_filter, mem_seeds, mem_gridList, decide_eq_true_eq]

theorem seedList_nodup (img : Image) : (seedList img).Nodup :=
  (gridList_nodup img).filter _

theorem seedList_length (img : Image) :
    (seedList img).length = (seeds img).card := by
  have ht : (seedList img).toFinset = seeds img := by
    ext c; rw [List.mem_toFinset, mem_seedList]
  rw [← ht, List.toFinset_card_of_nodup (seedList_nodup img)]

theorem grid_card (img : Image) : (grid img).card = img.w * img.h := by
  simp [grid, Int.card_Ico]

/-! ### One pass over the four neighbours of a popped coordinate -/

theorem visitOne_toRemove_mono (img : Image) (st : FloodState) (n : Int × Int) :
    st.toRemove ⊆ (visitOne img st n).toRemove := by
  unfold visitOne; split
  · exact Finset.subset_insert _ _
  · exact Finset.Subset.refl _

theorem foldl_toRemove_mono (img : Image) (l : List (Int × Int)) :
    ∀ st : FloodState, st.toRemove ⊆ (l.foldl (visitOne img) st).toRemove := by
  induction l with
  | nil => exact fun st => Finset.Subset.refl _
  | cons n l ih =>
    exact fun st => (visitOne_toRemove_mono img st n).trans (ih _)

theorem visitOne_stack_mono (img : Image) (st : FloodState) (n : Int × Int) :
    ∀ d ∈ st.stack, d ∈ (visitOne img st n).stack := by
  intro d hd; unfold visitOne; split
  · exact List.mem_cons_of_mem _ hd
  · exact hd

theorem foldl_stack_mono (img : Image) (l : List (Int × Int)) :
    ∀ st : FloodState, ∀ d ∈ st.stack, d ∈ (l.foldl (visitOne img) st).stack := by
  induction l with
  | nil => exact fun st d hd => hd
  | cons n l ih =>
    exact fun st d hd => ih _ d (visitOne_stack_mono img st n d hd)

/-- A coordinate that enters `to_remove` during a neighbour pass is also on the
resulting stack: every insertion is accompanied by a push. -/
theorem foldl_new_mem_stack (img : Image) (l : List (Int × Int)) :
    ∀ st : FloodState, ∀ d ∈ (l.foldl (visitOne img) st).toRemove,
      d ∈ st.toRemove ∨ d ∈ (l.foldl (visitOne img) st).stack := by
  induction l with
  | nil => exact fun st d hd => Or.inl hd
  | cons n l ih =>
    intro st d hd
    rcases ih (visitOne img st n) d hd with h | h
    · unfold visitOne at h
      by_cases hc : inB img n ∧ n ∉ st.toRemove ∧ darkPx img n
      · rw [if_pos hc] at h
        rcases Finset.mem_insert.mp h with rfl | h'
        · refine Or.inr (foldl_stack_mono img l _ _ ?_)
          unfold visitOne; rw [if_pos hc]
          exact List.mem_cons_self _ _
        · exact Or.inl h'
      · rw [if_neg hc] at h; exact Or.inl h
    · exact Or.inr h

/-- After the pass over a list, every listed coordinate that is in bounds and
dark with positive alpha is in `to_remove`. -/
theorem foldl_covers (img : Image) (l : List (Int × Int)) :
    ∀ st : FloodState, ∀ d ∈ l, inB img d → darkPx img d →
      d ∈ (l.foldl (visitOne img) st).toRemove := by
  induction l with
  | nil => intro st d hd; cases hd
  | cons n l ih =>
    intro st d hd hin hdark
    rcases List.mem_cons.mp hd with rfl | hd'
    · refine (foldl_toRemove_mono img l _) ?_
      unfold visitOne
      by_cases hc : inB img d ∧ d ∉ st.toRemove ∧ darkPx img d
      · rw [if_pos hc]; exact Finset.mem_insert_self _ _
      · rw [if_neg hc]
        by_contra hmem
        exact hc ⟨hin, hmem, hdark⟩
    · exact ih _ d hd' hin hdark

theorem visitOne_stack_sub (img : Image) (st : FloodState) (n : Int × Int)
    (h : ∀ d ∈ st.stack, d ∈ st.toRemove) :
    ∀ d ∈ (visitOne img st n).stack, d ∈ (visitOne img st n).toRemove := by
  unfold visitOne; split
  · intro d hd
    rcases List.mem_cons.mp hd with rfl | hd'
    · exact Finset.mem_insert_self _ _
    · exact Finset.mem_insert_of_mem (h d hd')
  · exact h

theorem foldl_stack_sub (img : Image) (l : List (Int × Int)) :
    ∀ st : FloodState, (∀ d ∈ st.stack, d ∈ st.toRemove) →
      ∀ d ∈ (l.foldl (visitOne img) st).stack,
        d ∈ (l.foldl (visitOne img) st).toRemove := by
  induction l with
  | nil => exact fun st h => h
  | cons n l ih => exact fun st h => ih _ (visitOne_stack_sub img st n h)

theorem visitOne_sub_grid (img : Image) (st : FloodState) (n : Int × Int)
    (h : st.toRemove ⊆ grid img) : (visitOne img st n).toRemove ⊆ grid img := by
  unfold visitOne; split
  · rename_i hc
    exact Finset.insert_subset (mem_grid.mpr hc.1) h
  · exact h

/-- Only coordinates that are dark with positive alpha ever enter `to_remove`
during a pass. -/
theorem foldl_reaches (img : Image) (c : Int × Int) (hc : Reaches img c)
    (l : List (Int × Int)) (hl : ∀ n ∈ l, n ∈ neighbors c) :
    ∀ st : FloodState, (∀ d ∈ st.toRemove, Reaches img d) →
      ∀ d ∈ (l.foldl (visitOne img) st).toRemove, Reaches img d := by
  induction l with
  | nil => exact fun st h => h
  | cons n l ih =>
    intro st h
    refine ih (fun m hm => hl m (List.mem_cons_of_mem _ hm)) _ ?_
    intro d hd
    unfold visitOne at hd
    by_cases hcnd : inB img n ∧ n ∉ st.toRemove ∧ darkPx img n
    · rw [if_pos hcnd] at hd
      rcases Finset.mem_insert.mp hd with rfl | hd'
      · exact Reaches.step c d hc (hl d (List.mem_cons_self _ _)) hcnd.1 hcnd.2.2
      · exact h d hd'
    · rw [if_neg hcnd] at hd; exact h d hd

/-! ### The work-list loop: termination measure and invariants -/

/-- Termination measure: stack length plus the number of grid coordinates not
yet in `to_remove`.  Each pop decreases it by exactly one. -/
def psi (img : Image) (st : FloodState) : Nat :=
  st.stack.length + ((grid img) \ st.toRemove).card

theorem psi_visitOne (img : Image) (st : FloodState) (n : Int × Int)
    (_h : st.toRemove ⊆ grid img) : psi img (visitOne img st n) = psi img st := by
  unfold visitOne psi; split
  · rename_i hc
    have hng : n ∈ grid img \ st.toRemove :=
      Finset.mem_sdiff.mpr ⟨mem_grid.mpr hc.1, hc.2.1⟩
    have hpos : 0 < (grid img \ st.toRemove).card := Finset.card_pos.mpr ⟨n, hng⟩
    rw [Finset.sdiff_insert, Finset.card_erase_of_mem hng]
    simp only [List.length_cons]
    omega
  · rfl

theorem psi_foldl (img : Image) (l : List (Int × Int)) :
    ∀ st : FloodState, st.toRemove ⊆ grid img →
      psi img (l.foldl (visitOne img) st) = psi img st ∧
      (l.foldl (visitOne img) st).toRemove ⊆ grid img := by
  induction l with
  | nil => exact fun st h => ⟨rfl, h⟩
  | cons n l ih =>
    intro st h
    obtain ⟨h1, h2⟩ := ih (visitOne img st n) (visitOne_sub_grid img st n h)
    exact ⟨h1.trans (psi_visitOne img st n h), h2⟩

theorem floodLoop_stack_empty (img : Image) :
    ∀ fuel : Nat, ∀ st : FloodState, psi img st ≤ fuel →
      st.toRemove ⊆ grid img → (floodLoop img fuel st).stack = [] := by
  intro fuel
  induction fuel with
  | zero =>
    rintro ⟨tr, stack⟩ hpsi _
    unfold psi at hpsi
    dsimp only at hpsi
    have : stack.length = 0 := by omega
    exact List.length_eq_zero.mp this
  | succ fuel ih =>
    rintro ⟨tr, stack⟩ hpsi hsub
    cases stack with
    | nil => rfl
    | cons c rest =>
      obtain ⟨hps, hsg⟩ :=
        psi_foldl img (neighbors c) ⟨tr, rest⟩ (by exact hsub)
      refine ih (visit img ⟨tr, rest⟩ c) ?_ hsg
      have : psi img (⟨tr, rest⟩ : FloodState) + 1 =
          psi img (⟨tr, c :: rest⟩ : FloodState) := by
        unfold psi; simp only [List.length_cons]; omega
      unfold visit
      rw [hps]
      omega

theorem floodLoop_toRemove_mono (img : Image) :
    ∀ fuel : Nat, ∀ st : FloodState,
      st.toRemove ⊆ (floodLoop img fuel st).toRemove := by
  intro fuel
  induction fuel with
  | zero => exact fun st => Finset.Subset.refl _
  | succ fuel ih =>
    rintro ⟨tr, stack⟩
    cases stack with
    | nil => exact Finset.Subset.refl _
    | cons c rest =>
      exact (foldl_toRemove_mono img (neighbors c) ⟨tr, rest⟩).trans (ih _)

/-- Soundness invariant: the stack is contained in `to_remove` and every
member of `to_remove` is reachable. -/
def SInv (img : Image) (st : FloodState) : Prop :=
  (∀ d ∈ st.stack, d ∈ st.toRemove) ∧ ∀ d ∈ st.toRemove, Reaches img d

theorem floodLoop_sound (img : Image) :
    ∀ fuel : Nat, ∀ st : FloodState, SInv img st →
      SInv img (floodLoop img fuel st) := by
  intro fuel
  induction fuel with
  | zero => exact fun st h => h
  | succ fuel ih =>
    rintro ⟨tr, stack⟩ h
    cases stack with
    | nil => exact h
    | cons c rest =>
      have hc : c ∈ tr := h.1 c (List.mem_cons_self _ _)
      have hcr : Reaches img c := h.2 c hc
      refine ih _ ⟨?_, ?_⟩
      · exact foldl_stack_sub img (neighbors c) ⟨tr, rest⟩
          (fun d hd => h.1 d (List.mem_cons_of_mem _ hd))
      · exact foldl_reaches img c hcr (neighbors c) (fun n hn => hn)
          ⟨tr, rest⟩ h.2

/-- Completeness invariant: every member of `to_remove` that is no longer on
the stack already has all its qualifying neighbours in `to_remove`. -/
def KInv (img : Image) (st : FloodState) : Prop :=
  ∀ d ∈ st.toRemove, d ∉ st.stack →
    ∀ n ∈ neighbors d, inB img n → darkPx img n → n ∈ st.toRemove

theorem floodLoop_closed (img : Image) :
    ∀ fuel : Nat, ∀ st : FloodState, KInv img st →
      KInv img (floodLoop img fuel st) := by
  intro fuel
  induction fuel with
  | zero => exact fun st h => h
  | succ fuel ih =>
    rintro ⟨tr, stack⟩ hK
    cases stack with
    | nil => exact hK
    | cons c rest =>
      refine ih _ ?_
      intro d hd hds n hn hin hdark
      rcases foldl_new_mem_stack img (neighbors c) ⟨tr, rest⟩ d hd with hdtr | hstk
      · by_cases hdc : d = c
        · subst hdc
          exact foldl_covers img (neighbors d) ⟨tr, rest⟩ n hn hin hdark
        · by_cases hdr : d ∈ rest
          · exact absurd (foldl_stack_mono img (neighbors c) ⟨tr, rest⟩ d hdr) hds
          · have hdstack : d ∉ ((c :: rest) : List (Int × Int)) := by
              intro hmem
              rcases List.mem_cons.mp hmem with h | h
              · exact hdc h
              · exact hdr h
            exact foldl_toRemove_mono img (neighbors c) ⟨tr, rest⟩
              (hK d hdtr hdstack n hn hin hdark)
      · exact absurd hstk hds

/-! ### Characterisation of the computed background set -/

theorem psi_initSt (img : Image) : psi img (initSt img) = img.w * img.h := by
  unfold psi initSt
  dsimp only
  rw [seedList_length]
  have hsub : seeds img ⊆ grid img := Finset.filter_subset _ _
  have hcard := Finset.card_sdiff_add_card_eq_card hsub
  rw [grid_card] at hcard
  omega

theorem seeds_sub_grid (img : Image) : seeds img ⊆ grid img :=
  Finset.filter_subset _ _

/-- The seeds survive into the final background set. -/
theorem seeds_sub_bgSet (img : Image) : seeds img ⊆ bgSet img :=
  floodLoop_toRemove_mono img (img.w * img.h) (initSt img)

/-- With fuel `w * h` the loop really reaches the empty stack. -/
theorem bg_stack_empty (img : Image) :
    (floodLoop img (img.w * img.h) (initSt img)).stack = [] :=
  floodLoop_stack_empty img (img.w * img.h) (initSt img)
    (le_of_eq (psi_initSt img)) (seeds_sub_grid img)

/-- Soundness: every member of the computed background set is reachable. -/
theorem bg_sound {img : Image} {c : Int × Int} (h : c ∈ bgSet img) :
    Reaches img c := by
  have hS : SInv img (initSt img) := by
    constructor
    · exact fun d hd => mem_seedList.mp hd
    · intro d hd
      obtain ⟨hin, hb, hdk⟩ := mem_seeds.mp hd
      exact Reaches.seed d hin hb hdk
  exact (floodLoop_sound img (img.w * img.h) (initSt img) hS).2 c h

/-- Completeness: every reachable coordinate is in the computed set. -/
theorem bg_complete {img : Image} {c : Int × Int} (h : Reaches img c) :
    c ∈ bgSet img := by
  have hK0 : KInv img (initSt img) := by
    intro d hd hds n hn hin hdark
    exact absurd (mem_seedList.mpr hd) hds
  have hK := floodLoop_closed img (img.w * img.h) (initSt img) hK0
  induction h with
  | seed c hin hb hdk => exact seeds_sub_bgSet img (mem_seeds.mpr ⟨hin, hb, hdk⟩)
  | step c n hc hn hin hdark ihc =>
    refine hK c ihc ?_ n hn hin hdark
    rw [bg_stack_empty img]
    exact List.not_mem_nil _

theorem reaches_darkPx {img : Image} {c : Int × Int} (h : Reaches img c) :
    darkPx img c := by
  cases h with
  | seed c hin hb hdk => exact hdk
  | step c n hc hn hin hdark => exact hdark

theorem reaches_inB {img : Image} {c : Int × Int} (h : Reaches img c) :
    inB img c := by
  cases h with
  | seed c hin hb hdk => exact hin
  | step c n hc hn hin hdark => exact hin

theorem bg_sub_grid (img : Image) : bgSet img ⊆ grid img :=
  fun _c hc => mem_grid.mpr (reaches_inB (bg_sound hc))

theorem bg_alpha_pos {img : Image} {c : Int × Int} (h : c ∈ bgSet img) :
    0 < (img.pix c.1 c.2).a :=
  (reaches_darkPx (bg_sound h)).1

/-! ### The two mutation passes, pointwise -/

theorem removeBg_pix (img : Image) (bg : Finset (Int × Int)) (x y : Int) :
    (removeBg img bg).pix x y =
      if (x, y) ∈ bg then
        ⟨(img.pix x y).r, (img.pix x y).g, (img.pix x y).b, 0⟩
      else img.pix x y := rfl

theorem removeIsolated_pix (img : Image) (x y : Int) :
    (removeIsolated img).pix x y =
      if inB img (x, y) ∧ isoPx img (x, y) then
        ⟨(img.pix x y).r, (img.pix x y).g, (img.pix x y).b, 0⟩
      else img.pix x y := rfl

/-- What `process` does to each pixel, in terms of the input image. -/
theorem process_pix (img : Image) (x y : Int) :
    (process img).pix x y =
      if (x, y) ∈ bgSet img then
        ⟨(img.pix x y).r, (img.pix x y).g, (img.pix x y).b, 0⟩
      else if inB img (x, y) ∧ isoPx img (x, y) then
        ⟨(img.pix x y).r, (img.pix x y).g, (img.pix x y).b, 0⟩
      else img.pix x y := by
  have hmid := removeBg_pix img (bgSet img) x y
  show (removeIsolated (removeBg img (bgSet img))).pix x y = _
  rw [removeIsolated_pix]
  by_cases hbg : (x, y) ∈ bgSet img
  · rw [if_pos hbg] at hmid
    rw [if_pos hbg]
    have hniso : ¬(inB (removeBg img (bgSet img)) (x, y) ∧
        isoPx (removeBg img (bgSet img)) (x, y)) := by
      rintro ⟨-, hiso⟩
      rw [isoPx_mk, hmid] at hiso
      exact absurd hiso.1 (by simp)
    rw [if_neg hniso, hmid]
  · rw [if_neg hbg] at hmid
    rw [if_neg hbg]
    have hcong : isoPx (removeBg img (bgSet img)) (x, y) ↔ isoPx img (x, y) := by
      rw [isoPx_mk, isoPx_mk, hmid]
    by_cases hiso : inB img (x, y) ∧ isoPx img (x, y)
    · have : inB (removeBg img (bgSet img)) (x, y) ∧
          isoPx (removeBg img (bgSet img)) (x, y) := ⟨hiso.1, hcong.mpr hiso.2⟩
      rw [if_pos this, if_pos hiso, hmid]
    · have : ¬(inB (removeBg img (bgSet img)) (x, y) ∧
          isoPx (removeBg img (bgSet img)) (x, y)) :=
        fun h => hiso ⟨h.1, hcong.mp h.2⟩
      rw [if_neg this, if_neg hiso, hmid]

/-! ### Idempotence: the output has no dark border seeds left -/

theorem floodLoop_of_stack_nil (img : Image) (fuel : Nat)
    (tr : Finset (Int × Int)) :
    floodLoop img fuel ⟨tr, []⟩ = ⟨tr, []⟩ := by
  cases fuel <;> rfl

/-- After processing, no border pixel is both dark and opaque, so a second
run collects no seeds. -/
theorem seeds_process (img : Image) : seeds (process img) = ∅ := by
  ext c
  simp only [Finset.not_mem_empty, iff_false]
  intro hc
  obtain ⟨x, y⟩ := c
  obtain ⟨hin, hb, hdark⟩ := mem_seeds.mp hc
  rw [darkPx_mk] at hdark
  have hp := process_pix img x y
  by_cases hbg : (x, y) ∈ bgSet img
  · rw [if_pos hbg] at hp
    rw [hp] at hdark
    exact absurd hdark.1 (by simp)
  · rw [if_neg hbg] at hp
    by_cases hiso : inB img (x, y) ∧ isoPx img (x, y)
    · rw [if_pos hiso] at hp
      rw [hp] at hdark
      exact absurd hdark.1 (by simp)
    · rw [if_neg hiso] at hp
      rw [hp] at hdark
      refine hbg (seeds_sub_bgSet img (mem_seeds.mpr ⟨hin, hb, ?_⟩))
      rw [darkPx_mk]
      exact hdark

theorem seedList_process (img : Image) : seedList (process img) = [] := by
  rw [List.eq_nil_iff_forall_not_mem]
  intro c hc
  have hmem := mem_seedList.mp hc
  rw [seeds_process] at hmem
  exact absurd hmem (Finset.not_mem_empty c)

theorem bgSet_process (img : Image) : bgSet (process img) = ∅ := by
  unfold bgSet initSt
  rw [seeds_process, seedList_process, floodLoop_of_stack_nil]

/-! ### Determinism: the result depends only on the in-bounds pixels -/

/-- Two images of equal dimensions whose pixels agree at every in-bounds
coordinate. -/
def Agrees (img₁ img₂ : Image) : Prop :=
  img₁.w = img₂.w ∧ img₁.h = img₂.h ∧
    ∀ x y : Int, inB img₁ (x, y) → img₁.pix x y = img₂.pix x y

theorem inB_congr {img₁ img₂ : Image} (hw : img₁.w = img₂.w)
    (hh : img₁.h = img₂.h) (c : Int × Int) : inB img₁ c ↔ inB img₂ c := by
  unfold inB; rw [hw, hh]

theorem onBorder_congr {img₁ img₂ : Image} (hw : img₁.w = img₂.w)
    (hh : img₁.h = img₂.h) (c : Int × Int) :
    onBorder img₁ c ↔ onBorder img₂ c := by
  unfold onBorder; rw [hw, hh]

theorem grid_congr {img₁ img₂ : Image} (hw : img₁.w = img₂.w)
    (hh : img₁.h = img₂.h) : grid img₁ = grid img₂ := by
  unfold grid; rw [hw, hh]

theorem gridList_congr {img₁ img₂ : Image} (hw : img₁.w = img₂.w)
    (hh : img₁.h = img₂.h) : gridList img₁ = gridList img₂ := by
  unfold gridList; rw [hw, hh]

theorem Agrees.pix_eq {img₁ img₂ : Image} (h : Agrees img₁ img₂)
    {c : Int × Int} (hc : inB img₁ c) : img₁.pix c.1 c.2 = img₂.pix c.1 c.2 :=
  h.2.2 c.1 c.2 hc

theorem Agrees.darkPx_iff {img₁ img₂ : Image} (h : Agrees img₁ img₂)
    {c : Int × Int} (hc : inB img₁ c) : darkPx img₁ c ↔ darkPx img₂ c :=
  darkPx_congr (h.pix_eq hc)

theorem Agrees.seeds_eq {img₁ img₂ : Image} (h : Agrees img₁ img₂) :
    seeds img₁ = seeds img₂ := by
  unfold seeds
  rw [← grid_congr h.1 h.2.1]
  apply Finset.filter_congr
  intro c hc
  exact and_congr (onBorder_congr h.1 h.2.1 c) (h.darkPx_iff (mem_grid.mp hc))

theorem Agrees.seedList_eq {img₁ img₂ : Image} (h : Agrees img₁ img₂) :
    seedList img₁ = seedList img₂ := by
  unfold seedList
  rw [← gridList_congr h.1 h.2.1]
  apply List.filter_congr
  intro c hc
  exact decide_eq_decide.mpr
    (and_congr (onBorder_congr h.1 h.2.1 c) (h.darkPx_iff (mem_gridList.mp hc)))

theorem Agrees.visitOne_eq {img₁ img₂ : Image} (h : Agrees img₁ img₂)
    (st : FloodState) (n : Int × Int) : visitOne img₁ st n = visitOne img₂ st n := by
  unfold visitOne
  by_cases h1 : inB img₁ n ∧ n ∉ st.toRemove ∧ darkPx img₁ n
  · have h2 : inB img₂ n ∧ n ∉ st.toRemove ∧ darkPx img₂ n :=
      ⟨(inB_congr h.1 h.2.1 n).mp h1.1, h1.2.1, (h.darkPx_iff h1.1).mp h1.2.2⟩
    rw [if_pos h1, if_pos h2]
  · have h2 : ¬(inB img₂ n ∧ n ∉ st.toRemove ∧ darkPx img₂ n) := by
      intro h2
      have hin1 : inB img₁ n := (inB_congr h.1 h.2.1 n).mpr h2.1
      exact h1 ⟨hin1, h2.2.1, (h.darkPx_iff hin1).mpr h2.2.2⟩
    rw [if_neg h1, if_neg h2]

theorem Agrees.floodLoop_eq {img₁ img₂ : Image} (h : Agrees img₁ img₂) :
    ∀ (fuel : Nat) (st : FloodState),
      floodLoop img₁ fuel st = floodLoop img₂ fuel st := by
  have hfun : visitOne img₁ = visitOne img₂ :=
    funext fun st => funext fun n => h.visitOne_eq st n
  intro fuel
  induction fuel with
  | zero => exact fun st => rfl
  | succ fuel ih =>
    rintro ⟨tr, stack⟩
    cases stack with
    | nil => rfl
    | cons c rest =>
      show floodLoop img₁ fuel (visit img₁ ⟨tr, rest⟩ c) =
        floodLoop img₂ fuel (visit img₂ ⟨tr, rest⟩ c)
      have hv : visit img₁ (⟨tr, rest⟩ : FloodState) c =
          visit img₂ (⟨tr, rest⟩ : FloodState) c := by
        unfold visit; rw [hfun]
      rw [hv, ih]

theorem Agrees.bgSet_eq {img₁ img₂ : Image} (h : Agrees img₁ img₂) :
    bgSet img₁ = bgSet img₂ := by
  unfold bgSet initSt
  rw [h.1, h.2.1, h.seeds_eq, h.seedList_eq, h.floodLoop_eq]

theorem Agrees.process_pix_eq {img₁ img₂ : Image} (h : Agrees img₁ img₂)
    (x y : Int) (hin : inB img₁ (x, y)) :
    (process img₁).pix x y = (process img₂).pix x y := by
  have hpix : img₁.pix x y = img₂.pix x y := h.2.2 x y hin
  rw [process_pix, process_pix, ← h.bgSet_eq]
  have hcond : (inB img₁ (x, y) ∧ isoPx img₁ (x, y)) ↔
      (inB img₂ (x, y) ∧ isoPx img₂ (x, y)) :=
    and_congr (inB_congr h.1 h.2.1 _) (isoPx_congr hpix)
  by_cases hbg : (x, y) ∈ bgSet img₁
  · rw [if_pos hbg, if_pos hbg, hpix]
  · rw [if_neg hbg, if_neg hbg]
    by_cases hi : inB img₁ (x, y) ∧ isoPx img₁ (x, y)
    · rw [if_pos hi, if_pos (hcond.mp hi), hpix]
    · rw [if_neg hi, if_neg (fun hx => hi (hcond.mpr hx)), hpix]

/-! ### The claims -/

/-- Claim C1: at every in-bounds pixel, the output alpha is zero iff the pixel
started with alpha 0, or lies in the flood-filled background set, or had
alpha > 0 and luminance at most the isolated threshold 0.15; at every other
pixel the alpha is unchanged, alpha never increases, and input alpha 0 stays
0. -/
theorem alpha_removal_characterization (img : Image) (x y : Int)
    (hin : inB img (x, y)) :
    (((process img).pix x y).a = 0 ↔
      ((img.pix x y).a = 0 ∨ (x, y) ∈ bgSet img ∨
        (0 < (img.pix x y).a ∧ lum255000 (img.pix x y) ≤ ISOLATED))) ∧
    (¬((img.pix x y).a = 0 ∨ (x, y) ∈ bgSet img ∨
        (0 < (img.pix x y).a ∧ lum255000 (img.pix x y) ≤ ISOLATED)) →
      ((process img).pix x y).a = (img.pix x y).a) ∧
    ((process img).pix x y).a ≤ (img.pix x y).a ∧
    ((img.pix x y).a = 0 → ((process img).pix x y).a = 0) := by
  have hp := process_pix img x y
  by_cases hbg : (x, y) ∈ bgSet img
  · rw [if_pos hbg] at hp
    rw [hp]
    exact ⟨⟨fun _ => Or.inr (Or.inl hbg), fun _ => rfl⟩,
      fun hn => absurd (Or.inr (Or.inl hbg)) hn, Nat.zero_le _, fun _ => rfl⟩
  · rw [if_neg hbg] at hp
    by_cases hiso : inB img (x, y) ∧ isoPx img (x, y)
    · rw [if_pos hiso] at hp
      rw [hp]
      have h3 : 0 < (img.pix x y).a ∧ lum255000 (img.pix x y) ≤ ISOLATED :=
        (isoPx_mk img x y).mp hiso.2
      exact ⟨⟨fun _ => Or.inr (Or.inr h3), fun _ => rfl⟩,
        fun hn => absurd (Or.inr (Or.inr h3)) hn, Nat.zero_le _, fun _ => rfl⟩
    · rw [if_neg hiso] at hp
      rw [hp]
      have hniso : ¬(0 < (img.pix x y).a ∧
          lum255000 (img.pix x y) ≤ ISOLATED) :=
        fun hc => hiso ⟨hin, (isoPx_mk img x y).mpr hc⟩
      refine ⟨⟨fun h0 => Or.inl h0, ?_⟩, fun _ => rfl, le_refl _, fun h0 => h0⟩
      rintro (h0 | hbg' | h3)
      · exact h0
      · exact absurd hbg' hbg
      · exact absurd h3 hniso

/-- Claim C1, witness: the characterisation evaluated at the corner of the
3×3 test image. -/
theorem alpha_removal_characterization_witness :
    (((process img3).pix 0 0).a = 0 ↔
      ((img3.pix 0 0).a = 0 ∨ ((0 : Int), (0 : Int)) ∈ bgSet img3 ∨
        (0 < (img3.pix 0 0).a ∧ lum255000 (img3.pix 0 0) ≤ ISOLATED))) ∧
    (¬((img3.pix 0 0).a = 0 ∨ ((0 : Int), (0 : Int)) ∈ bgSet img3 ∨
        (0 < (img3.pix 0 0).a ∧ lum255000 (img3.pix 0 0) ≤ ISOLATED)) →
      ((process img3).pix 0 0).a = (img3.pix 0 0).a) ∧
    ((process img3).pix 0 0).a ≤ (img3.pix 0 0).a ∧
    ((img3.pix 0 0).a = 0 → ((process img3).pix 0 0).a = 0) :=
  alpha_removal_characterization img3 0 0 (by decide)

/-- Claim C2: the output has the input's dimensions and, at every coordinate,
the input's red, green and blue values; only alpha may differ. -/
theorem dims_rgb_preserved (img : Image) :
    (process img).w = img.w ∧ (process img).h = img.h ∧
    ∀ x y : Int,
      ((process img).pix x y).r = (img.pix x y).r ∧
      ((process img).pix x y).g = (img.pix x y).g ∧
      ((process img).pix x y).b = (img.pix x y).b := by
  refine ⟨rfl, rfl, ?_⟩
  intro x y
  have hp := process_pix img x y
  by_cases hbg : (x, y) ∈ bgSet img
  · rw [if_pos hbg] at hp; rw [hp]; exact ⟨rfl, rfl, rfl⟩
  · rw [if_neg hbg] at hp
    by_cases hiso : inB img (x, y) ∧ isoPx img (x, y)
    · rw [if_pos hiso] at hp; rw [hp]; exact ⟨rfl, rfl, rfl⟩
    · rw [if_neg hiso] at hp; rw [hp]; exact ⟨rfl, rfl, rfl⟩

/-- Claim C3: every member of the background set at the end of the flood fill
is a dark border pixel with positive alpha, or is reachable from one through
a 4-connected path of in-bounds dark pixels with positive alpha, all judged
on the original image. -/
theorem bg_members_reachable (img : Image) (c : Int × Int)
    (h : c ∈ bgSet img) : Reaches img c :=
  bg_sound h

/-- Claim C3, witness: the corner of the 3×3 test image is in the background
set, hence reachable. -/
theorem bg_members_reachable_witness : Reaches img3 (0, 0) :=
  bg_members_reachable img3 (0, 0) (by decide)

/-- Claim C4: the whole pipeline is idempotent — processing the output again
returns it unchanged. -/
theorem process_idempotent (img : Image) : process (process img) = process img := by
  have hbg2 : bgSet (process img) = ∅ := bgSet_process img
  refine Image.ext rfl rfl ?_
  funext x y
  rw [process_pix (process img) x y, hbg2]
  rw [if_neg (Finset.not_mem_empty _)]
  have hniso : ¬(inB (process img) (x, y) ∧ isoPx (process img) (x, y)) := by
    rintro ⟨hin2, hiso⟩
    rw [isoPx_mk] at hiso
    have hp := process_pix img x y
    by_cases hbg : (x, y) ∈ bgSet img
    · rw [if_pos hbg] at hp; rw [hp] at hiso
      exact absurd hiso.1 (by simp)
    · rw [if_neg hbg] at hp
      by_cases hiso1 : inB img (x, y) ∧ isoPx img (x, y)
      · rw [if_pos hiso1] at hp; rw [hp] at hiso
        exact absurd hiso.1 (by simp)
      · rw [if_neg hiso1] at hp; rw [hp] at hiso
        exact hiso1 ⟨hin2, (isoPx_mk img x y).mpr hiso⟩
  rw [if_neg hniso]

/-- Claim C5: any pixel that after the flood-fill removal still has alpha > 0
and luminance at most 0.15 ends with alpha 0, independently of connectivity;
in particular, the centre of the 5×5 image with a single dark centre pixel is
removed by the cleanup even though the flood fill cannot reach it. -/
theorem isolated_dark_removed (img : Image) (x y : Int)
    (hin : inB img (x, y))
    (ha : 0 < ((removeBg img (bgSet img)).pix x y).a)
    (hl : lum255000 ((removeBg img (bgSet img)).pix x y) ≤ ISOLATED) :
    ((process img).pix x y).a = 0 ∧
    (((2 : Int), (2 : Int)) ∉ bgSet img5 ∧ ((process img5).pix 2 2).a = 0) := by
  constructor
  · show ((removeIsolated (removeBg img (bgSet img))).pix x y).a = 0
    rw [removeIsolated_pix,
      if_pos ⟨hin, (isoPx_mk (removeBg img (bgSet img)) x y).mpr ⟨ha, hl⟩⟩]
  · exact ⟨by decide, by decide⟩

/-- Claim C5, witness: the cleanup applied to the centre of the 5×5 test
image. -/
theorem isolated_dark_removed_witness :
    ((process img5).pix 2 2).a = 0 ∧
    (((2 : Int), (2 : Int)) ∉ bgSet img5 ∧ ((process img5).pix 2 2).a = 0) :=
  isolated_dark_removed img5 2 2 (by decide) (by decide) (by decide)

/-- Claim C6: the flood-fill loop terminates within `w * h` pops — any fuel
of at least `w * h` empties the stack; the membership test prevents a second
insertion of a coordinate already in the set, and the set only grows. -/
theorem flood_fill_terminates (img : Image) (fuel : Nat) (st : FloodState)
    (n : Int × Int) (hfuel : img.w * img.h ≤ fuel) :
    (floodLoop img fuel (initSt img)).stack = [] ∧
    (n ∈ st.toRemove → visitOne img st n = st) ∧
    st.toRemove ⊆ (visitOne img st n).toRemove := by
  refine ⟨?_, ?_, visitOne_toRemove_mono img st n⟩
  · exact floodLoop_stack_empty img fuel (initSt img)
      (le_trans (le_of_eq (psi_initSt img)) hfuel) (seeds_sub_grid img)
  · intro hmem
    unfold visitOne
    rw [if_neg]
    rintro ⟨-, hnot, -⟩
    exact hnot hmem

/-- Claim C6, witness: the loop on the 3×3 test image with fuel `9`. -/
theorem flood_fill_terminates_witness :
    (floodLoop img3 9 (initSt img3)).stack = [] ∧
    (((0 : Int), (0 : Int)) ∈ (FloodState.mk ∅ []).toRemove →
      visitOne img3 ⟨∅, []⟩ (0, 0) = ⟨∅, []⟩) ∧
    (FloodState.mk ∅ []).toRemove ⊆ (visitOne img3 ⟨∅, []⟩ (0, 0)).toRemove :=
  flood_fill_terminates img3 9 ⟨∅, []⟩ (0, 0) (by decide)

/-- Claim C7: an in-bounds pixel that is dark with positive alpha but has
luminance above the isolated threshold, and is not 4-connected to a dark
border seed through dark pixels (`¬ Reaches`), keeps its original alpha. -/
theorem enclosed_blob_keeps_alpha (img : Image) (x y : Int)
    (_hin : inB img (x, y)) (_hdark : darkPx img (x, y))
    (hlum : ISOLATED < lum255000 (img.pix x y))
    (hnr : ¬ Reaches img (x, y)) :
    ((process img).pix x y).a = (img.pix x y).a := by
  have hbg : (x, y) ∉ bgSet img := fun hb => hnr (bg_sound hb)
  have hniso : ¬(inB img (x, y) ∧ isoPx img (x, y)) := by
    rintro ⟨-, hiso⟩
    exact absurd ((isoPx_mk img x y).mp hiso).2 (not_le.mpr hlum)
  have hp := process_pix img x y
  rw [if_neg hbg, if_neg hniso] at hp
  rw [hp]

/-- The centre of `imgBlob` is not reachable: it is not on the border, and
its four neighbours are white, hence not dark. -/
theorem imgBlob_center_unreachable : ¬ Reaches imgBlob (2, 2) := by
  intro hr
  rcases hr with ⟨c, hin', hb, hdk⟩ | ⟨c, n, hc, hn, hin', hdark'⟩
  · exact absurd hb (by decide)
  · have hcd := reaches_darkPx hc
    obtain ⟨cx, cy⟩ := c
    simp only [neighbors, List.mem_cons, List.not_mem_nil, or_false,
      Prod.mk.injEq] at hn
    rcases hn with ⟨h1, h2⟩ | ⟨h1, h2⟩ | ⟨h1, h2⟩ | ⟨h1, h2⟩
    · have e1 : cx = 3 := by omega
      have e2 : cy = 2 := by omega
      subst e1; subst e2
      exact absurd hcd (by decide)
    · have e1 : cx = 1 := by omega
      have e2 : cy = 2 := by omega
      subst e1; subst e2
      exact absurd hcd (by decide)
    · have e1 : cx = 2 := by omega
      have e2 : cy = 3 := by omega
      subst e1; subst e2
      exact absurd hcd (by decide)
    · have e1 : cx = 2 := by omega
      have e2 : cy = 1 := by omega
      subst e1; subst e2
      exact absurd hcd (by decide)

/-- Claim C7, witness: the enclosed grey blob at the centre of `imgBlob`
keeps its alpha. -/
theorem enclosed_blob_keeps_alpha_witness :
    ((process imgBlob).pix 2 2).a = (imgBlob.pix 2 2).a :=
  enclosed_blob_keeps_alpha imgBlob 2 2 (by decide) (by decide) (by decide)
    imgBlob_center_unreachable

/-- Claim C8: in the 3×3 image with a pure black border and pure white
centre, all 8 border pixels end with alpha 0 and the centre keeps its
original alpha. -/
theorem border_seeds_3x3 :
    ((process img3).pix 0 0).a = 0 ∧ ((process img3).pix 1 0).a = 0 ∧
    ((process img3).pix 2 0).a = 0 ∧ ((process img3).pix 0 1).a = 0 ∧
    ((process img3).pix 2 1).a = 0 ∧ ((process img3).pix 0 2).a = 0 ∧
    ((process img3).pix 1 2).a = 0 ∧ ((process img3).pix 2 2).a = 0 ∧
    ((process img3).pix 1 1).a = (img3.pix 1 1).a := by
  decide

/-- Claim C10: the computed background set is exactly the set of coordinates
reachable from dark border seeds — an order-independent characterisation —
and the processed pixels depend only on the input dimensions and in-bounds
pixels, so two runs on equal inputs give equal outputs. -/
theorem process_deterministic (img₁ img₂ : Image) (x y : Int)
    (hw : img₁.w = img₂.w) (hh : img₁.h = img₂.h)
    (hpix : ∀ a b : Int, inB img₁ (a, b) → img₁.pix a b = img₂.pix a b)
    (hin : inB img₁ (x, y)) :
    (((x, y) ∈ bgSet img₁ ↔ Reaches img₁ (x, y))) ∧
    (process img₁).pix x y = (process img₂).pix x y := by
  have hA : Agrees img₁ img₂ := ⟨hw, hh, hpix⟩
  exact ⟨⟨fun h => bg_sound h, fun h => bg_complete h⟩,
    hA.process_pix_eq x y hin⟩

/-- Claim C10, witness: `img3` against a copy that differs only out of
bounds. -/
theorem process_deterministic_witness :
    ((((0 : Int), (0 : Int)) ∈ bgSet img3 ↔ Reaches img3 (0, 0))) ∧
    (process img3).pix 0 0 = (process img3offGrid).pix 0 0 :=
  process_deterministic img3 img3offGrid 0 0 rfl rfl
    (fun a b hab => by
      show img3.pix a b = if 0 ≤ a ∧ a < 3 ∧ 0 ≤ b ∧ b < 3
        then img3.pix a b else ⟨7, 7, 7, 7⟩
      rw [if_pos ⟨hab.1, hab.2.1, hab.2.2.1, hab.2.2.2⟩])
    (by decide)

end RemoveLogoBg
